import Mathlib

/-!
Verification of the image-to-thermal-raster conversion pipeline of
`src/lib/pdf-processor.ts` (margin trimming, proportional scaling,
monochrome rasterization, page pipeline orchestration).

Shallow embedding conventions:
* An RGBA bitmap (an `ImageData` pixel buffer) is modelled as its width,
  height and a pixel-indexed function returning the R, G, B channels.
  The source reads channel `c` of pixel `(x, y)` at buffer offset
  `(y * width + x) * 4 + c`; the alpha channel at offset `+3` is never
  read by any of the functions under verification, so it is omitted.
* JavaScript numbers are IEEE-754 binary64 values.  Integer-valued
  quantities (dimensions, margins, loop counters, channel bytes) stay
  below 2^53, where binary64 arithmetic on the operations used (+, -,
  comparison, division by 8 followed by ceil) is exact, so they are
  modelled as `Nat`.  The luminance computation and the aspect-ratio
  computation round: they are modelled as exact rationals threaded
  through an explicit binary64 rounding function `fl` (round to nearest,
  ties to even, 53-bit significand), applied after every `*`, `/` and
  `+` exactly where the source performs the operation.
* The base64 step (`btoa`) and the PNG preview (`toDataURL`) are
  platform text/image encodings with no algorithmic content claimed;
  the raster output is modelled as the packed byte list the source
  builds in its `Uint8Array` before encoding.
-/

/-- One RGBA pixel's colour channels (alpha never read by this code). -/
structure Pix where
  r : Nat
  g : Nat
  b : Nat
deriving DecidableEq, Repr

/-- An in-memory bitmap: canvas dimensions plus the pixel buffer,
modelled as a function from coordinates to the pixel channels. -/
structure Bitmap where
  width : Nat
  height : Nat
  px : Nat → Nat → Pix

/-! ### Binary64 (IEEE-754 double) rounding model

`fl q` is the binary64 value nearest to the rational `q` (ties to even),
for the normal range used by this program; it is what every JavaScript
arithmetic operation applies to its exact result. -/

/-- Binary exponent search, upward phase: for `1 ≤ q`, the greatest `e`
with `2^e ≤ q`, found by repeated halving (fuel-bounded structural
recursion; fuel 1100 covers the whole binary64 range). -/
def ilog2up : Nat → ℚ → Nat
  | 0, _ => 0
  | fuel + 1, q => if q < 2 then 0 else ilog2up fuel (q / 2) + 1

/-- Binary exponent search, downward phase: for `0 < q < 1`, the number
of doublings needed to reach `[1, 2)`. -/
def ilog2dn : Nat → ℚ → Nat
  | 0, _ => 0
  | fuel + 1, q => if 1 ≤ q then 0 else ilog2dn fuel (q * 2) + 1

/-- Floor of the base-2 logarithm of a positive rational. -/
def ilog2 (q : ℚ) : ℤ :=
  if 1 ≤ q then (ilog2up 1100 q : ℤ) else -(ilog2dn 1100 q : ℤ)

/-- Round a rational to the nearest integer, ties to even. -/
def rne (q : ℚ) : ℤ :=
  if q - ⌊q⌋ < 1 / 2 then ⌊q⌋
  else if 1 / 2 < q - ⌊q⌋ then ⌊q⌋ + 1
  else if ⌊q⌋ % 2 = 0 then ⌊q⌋ else ⌊q⌋ + 1

/-- Round a nonnegative rational to the nearest binary64 value
(53-bit significand, round to nearest, ties to even). -/
def fl (q : ℚ) : ℚ :=
  if q = 0 then 0
  else
    let e : ℤ := ilog2 q
    let s : ℚ := (2 : ℚ) ^ (52 - e).toNat / (2 : ℚ) ^ (e - 52).toNat
    (rne (q * s) : ℚ) / s

/-- Binary64 multiplication: exact product, then one rounding. -/
def dMul (a b : ℚ) : ℚ := fl (a * b)

/-- Binary64 addition: exact sum, then one rounding. -/
def dAdd (a b : ℚ) : ℚ := fl (a + b)

/-- Binary64 division: exact quotient, then one rounding. -/
def dDiv (a b : ℚ) : ℚ := fl (a / b)

/-- The binary64 value denoted by the literal `0.299`. -/
def lit299 : ℚ := fl (299 / 1000)

/-- The binary64 value denoted by the literal `0.587`. -/
def lit587 : ℚ := fl (587 / 1000)

/-- The binary64 value denoted by the literal `0.114`. -/
def lit114 : ℚ := fl (114 / 1000)

/-- `gray = 0.299 * r + 0.587 * g + 0.114 * b` exactly as the source
evaluates it in binary64: three rounded products combined by two
rounded additions, left associated. -/
def dLum (p : Pix) : ℚ :=
  dAdd (dAdd (dMul lit299 p.r) (dMul lit587 p.g)) (dMul lit114 p.b)

/-- The exact-rational luminance `0.299*R + 0.587*G + 0.114*B`, as the
specification's formula reads when taken over the reals (for comparison
with the binary64 value the code computes). -/
def specLum (p : Pix) : ℚ := 0.299 * p.r + 0.587 * p.g + 0.114 * p.b

/-- `Math.round`: nearest integer, half-integers up.  ECMAScript defines
`Math.round x` on the exact real value of `x` as `⌊x + 1/2⌋`, which is
Mathlib's `round` on `ℚ`. -/
def jsRound (q : ℚ) : ℤ := round q

/-! ### Monochrome rasterizer (`canvasToRasterData`, pdf-processor.ts 268-311)

The source pads the row width to a multiple of 8 (`Math.ceil(width/8)*8`,
exact in binary64 for integer widths), zero-initialises a `Uint8Array`
of `bytesPerLine * height` bytes, and for each `y` and each padded
column `x` ORs bit `7 - x % 8` into byte `y * bytesPerLine + x / 8`
when the binary64 luminance of pixel `(min x (width-1), y)` is below
the threshold.  Byte `y * bytesPerLine + i` therefore receives exactly
the bits of columns `8*i .. 8*i+7`, in increasing column order, which
the per-byte fold below reproduces. -/

/-- `Math.ceil(width / 8)`, the bytes per raster row; for natural
`width` this is `(width + 7) / 8` in integer arithmetic. -/
def bytesPerLine (width : Nat) : Nat := (width + 7) / 8

/-- Whether the source prints pixel `(x, y)` as ink: binary64 luminance
of the column-clamped pixel strictly below the threshold
(`const srcX = Math.min(x, canvas.width - 1)`; `gray < threshold`). -/
def isBlack (b : Bitmap) (threshold : ℚ) (x y : Nat) : Bool :=
  dLum (b.px (min x (b.width - 1)) y) < threshold

/-- The raster byte covering columns `8*i .. 8*i+7` of row `y`: built
from 0 by OR-ing `1 <<< (7 - x % 8)` for each ink column, MSB first,
exactly as the source's inner loop does for this byte index. -/
def rasterByte (b : Bitmap) (threshold : ℚ) (y i : Nat) : Nat :=
  (List.range 8).foldl
    (fun acc j => if isBlack b threshold (8 * i + j) y then acc ||| (1 <<< (7 - j)) else acc) 0

/-- The packed raster buffer: the flat `Uint8Array` of
`bytesPerLine * height` bytes, byte index `bi` holding row `bi / bytesPerLine`,
byte-in-row `bi % bytesPerLine` (the source's `byteIndex = y * bytesPerLine + ⌊x/8⌋`).
The subsequent `btoa` text encoding is not modelled. -/
def canvasToRasterData (b : Bitmap) (threshold : ℚ) : List Nat :=
  (List.range (bytesPerLine b.width * b.height)).map
    (fun bi => rasterByte b threshold (bi / bytesPerLine b.width) (bi % bytesPerLine b.width))

/-! ### Margin trimmer (`trimCanvasMargins`, pdf-processor.ts 175-263) -/

/-- A pixel counts as content when any of R, G, B is below the fixed
whiteness threshold 250 (`pixels[idx] < whiteThreshold || ...`). -/
def isNonWhite (p : Pix) : Bool := p.r < 250 || p.g < 250 || p.b < 250

/-- Whether row `y` contains a non-white pixel (the inner loop of the
top/bottom edge scans). -/
def rowHasInk (b : Bitmap) (y : Nat) : Bool :=
  (List.range b.width).any fun x => isNonWhite (b.px x y)

/-- Whether column `x` contains a non-white pixel (the inner loop of
the left/right edge scans). -/
def colHasInk (b : Bitmap) (x : Nat) : Bool :=
  (List.range b.height).any fun y => isNonWhite (b.px x y)

/-- The `top` scan: first row from the top containing a non-white
pixel; stays at its initialiser 0 when none exists. -/
def contentTop (b : Bitmap) : Nat :=
  ((List.range b.height).find? (rowHasInk b)).getD 0

/-- The `bottom` scan: first row from the bottom containing a non-white
pixel; stays at its initialiser `height - 1` when none exists. -/
def contentBottom (b : Bitmap) : Nat :=
  ((List.range b.height).reverse.find? (rowHasInk b)).getD (b.height - 1)

/-- The `left` scan: first column from the left containing a non-white
pixel; stays at its initialiser 0 when none exists. -/
def contentLeft (b : Bitmap) : Nat :=
  ((List.range b.width).find? (colHasInk b)).getD 0

/-- The `right` scan: first column from the right containing a
non-white pixel; stays at its initialiser `width - 1` when none
exists. -/
def contentRight (b : Bitmap) : Nat :=
  ((List.range b.width).reverse.find? (colHasInk b)).getD (b.width - 1)

/-- Trim margin configuration: four non-negative pixel counts. -/
structure Margins where
  top : Nat
  bottom : Nat
  left : Nat
  right : Nat
deriving DecidableEq, Repr

/-- `top = Math.max(0, top - margins.top)`: truncated `Nat`
subtraction is exactly this clamp for non-negative margins. -/
def trimTop (b : Bitmap) (m : Margins) : Nat := contentTop b - m.top

/-- `bottom = Math.min(height - 1, bottom + margins.bottom)`. -/
def trimBottom (b : Bitmap) (m : Margins) : Nat :=
  min (b.height - 1) (contentBottom b + m.bottom)

/-- `left = Math.max(0, left - margins.left)`. -/
def trimLeft (b : Bitmap) (m : Margins) : Nat := contentLeft b - m.left

/-- `right = Math.min(width - 1, right + margins.right)`. -/
def trimRight (b : Bitmap) (m : Margins) : Nat :=
  min (b.width - 1) (contentRight b + m.right)

/-- `newWidth = right - left + 1`. -/
def trimNewWidth (b : Bitmap) (m : Margins) : Nat :=
  trimRight b m - trimLeft b m + 1

/-- `newHeight = bottom - top + 1`. -/
def trimNewHeight (b : Bitmap) (m : Margins) : Nat :=
  trimBottom b m - trimTop b m + 1

/-- The cropped canvas: `newWidth × newHeight`, filled white and then
blitted with the source rectangle starting at `(left, top)`; since the
blit covers the whole target, pixel `(x, y)` is source pixel
`(left + x, top + y)`. -/
def cropBitmap (b : Bitmap) (left top newWidth newHeight : Nat) : Bitmap :=
  { width := newWidth, height := newHeight, px := fun x y => b.px (left + x) (top + y) }

/-- `trimCanvasMargins`: scan the content box, expand by the margins
with clamping, return the input untouched when
`newWidth >= width - 10 && newHeight >= height - 10` (in JavaScript
`width - 10` may be negative, in which case the comparison is always
true — and so is the `Nat`-truncated comparison, since `newWidth ≥ 1 ≥ 0`),
otherwise the cropped canvas. -/
def trimCanvasMargins (b : Bitmap) (m : Margins) : Bitmap :=
  if b.width - 10 ≤ trimNewWidth b m ∧ b.height - 10 ≤ trimNewHeight b m then b
  else cropBitmap b (trimLeft b m) (trimTop b m) (trimNewWidth b m) (trimNewHeight b m)

/-! ### Proportional scaler and page pipeline (`processPdfPage`, 316-392) -/

/-- The scaled canvas of the target-width branch:
`targetHeight = Math.round(targetWidth * (height / width))` with the
aspect ratio and product computed in binary64.  The canvas is
white-filled before `drawImage`; the browser's resampling of the drawn
pixels is platform-defined and no claim depends on the scaled pixel
values, so the pixel function is left at the white fill. -/
def scaleToWidth (b : Bitmap) (targetWidth : Nat) : Bitmap :=
  { width := targetWidth
    height := (jsRound (dMul targetWidth (dDiv b.height b.width))).toNat
    px := fun _ _ => ⟨255, 255, 255⟩ }

/-- The merged processing configuration (`mergedConfig`: user config
spread over `DEFAULT_PDF_CONFIG`, so every field is present).
`scale` only governs the external render step, which happens before
the bitmap enters the pipeline modelled here. -/
structure PdfProcessingConfig where
  enabled : Bool
  trimMargins : Margins
  targetWidth : Nat
  monochromeThreshold : ℚ

/-- `DEFAULT_PDF_CONFIG` (pdf-processor.ts 159-170), minus the render
scale consumed by the external render step. -/
def DEFAULT_PDF_CONFIG : PdfProcessingConfig :=
  { enabled := true
    trimMargins := ⟨8, 8, 8, 8⟩
    targetWidth := 576
    monochromeThreshold := 160 }

/-- The pipeline's per-page output: final dimensions, the packed raster
bytes (pre-base64), and the final canvas.  The PNG preview string is a
platform encoding of the same final canvas and is not modelled. -/
structure ProcessedPage where
  width : Nat
  height : Nat
  raster : List Nat
  canvas : Bitmap

/-- `processPdfPage` after the external render produced the
high-resolution bitmap: trim when `enabled`, scale when `enabled` and
`targetWidth` is truthy (a number is falsy exactly when it is 0 here),
then rasterize the final canvas and report its dimensions. -/
def processPdfPage (b : Bitmap) (cfg : PdfProcessingConfig) : ProcessedPage :=
  let processedCanvas := if cfg.enabled then trimCanvasMargins b cfg.trimMargins else b
  let finalCanvas :=
    if cfg.enabled ∧ cfg.targetWidth ≠ 0 then scaleToWidth processedCanvas cfg.targetWidth
    else processedCanvas
  { width := finalCanvas.width
    height := finalCanvas.height
    raster := canvasToRasterData finalCanvas cfg.monochromeThreshold
    canvas := finalCanvas }

/-! ### Multi-page loop (`processPdfFile`, 417-433)

`getPage` abstracts the external bitmap source (`pdf.getPage` plus the
page render): it yields the rendered bitmap for a 1-based page number
or a decode error.  A rejected promise aborts the whole `async`
function, discarding the pages accumulated so far. -/

/-- The `for (pageNum = 1; pageNum <= numPages; ...)` loop, processing
`count` pages starting at `start`: stop at the first page whose source
fails, otherwise accumulate results in page order. -/
def processPagesFrom {ε : Type} (getPage : Nat → Except ε Bitmap)
    (cfg : PdfProcessingConfig) : Nat → Nat → Except ε (List ProcessedPage)
  | _, 0 => Except.ok []
  | start, count + 1 =>
    match getPage start with
    | Except.error e => Except.error e
    | Except.ok b =>
      match processPagesFrom getPage cfg (start + 1) count with
      | Except.error e => Except.error e
      | Except.ok rest => Except.ok (processPdfPage b cfg :: rest)

/-- `processPdfFile`: process pages 1 through `numPages` in order. -/
def processPdfFile {ε : Type} (numPages : Nat) (getPage : Nat → Except ε Bitmap)
    (cfg : PdfProcessingConfig) : Except ε (List ProcessedPage) :=
  processPagesFrom getPage cfg 1 numPages

/-! ### Auxiliary definitions used by the statements and witnesses -/

/-- There is a non-white pixel inside the bitmap bounds. -/
def hasInk (b : Bitmap) : Prop :=
  ∃ x < b.width, ∃ y < b.height, isNonWhite (b.px x y) = true

/-- The byte assembled from eight ink bits, MSB first: the value the
source's inner loop leaves in one `Uint8Array` cell (the explicit
unrolling of `rasterByte`'s fold). -/
def mkByte (b0 b1 b2 b3 b4 b5 b6 b7 : Bool) : Nat :=
  let a0 : Nat := if b0 then 0 ||| 1 <<< 7 else 0
  let a1 := if b1 then a0 ||| 1 <<< 6 else a0
  let a2 := if b2 then a1 ||| 1 <<< 5 else a1
  let a3 := if b3 then a2 ||| 1 <<< 4 else a2
  let a4 := if b4 then a3 ||| 1 <<< 3 else a3
  let a5 := if b5 then a4 ||| 1 <<< 2 else a4
  let a6 := if b6 then a5 ||| 1 <<< 1 else a5
  if b7 then a6 ||| 1 <<< 0 else a6

/-- A fully white pixel. -/
def whitePix : Pix := ⟨255, 255, 255⟩

/-- A fully black pixel. -/
def blackPix : Pix := ⟨0, 0, 0⟩

/-- 15×15 white bitmap with one black pixel at (7, 7). -/
def exDot : Bitmap := ⟨15, 15, fun x y => if x = 7 ∧ y = 7 then blackPix else whitePix⟩

/-- 3×1 bitmap: black, white, black. -/
def exBWB : Bitmap := ⟨3, 1, fun x _ => if x = 1 then whitePix else blackPix⟩

/-- 1×1 bitmap whose only pixel is (0, 72, 24): its exact luminance is
`(299*0 + 587*72 + 114*24)/1000 = 45` exactly, while the binary64
evaluation is just below 45. -/
def exBoundary : Bitmap := ⟨1, 1, fun _ _ => ⟨0, 72, 24⟩⟩

/-- 8×1 bitmap filled with the boundary pixel (0, 72, 24). -/
def exBoundary8 : Bitmap := ⟨8, 1, fun _ _ => ⟨0, 72, 24⟩⟩

/-- 8×1 all-black bitmap. -/
def exBlack8 : Bitmap := ⟨8, 1, fun _ _ => blackPix⟩

/-- 6×13 all-white bitmap (aspect ratio 13/6, not a binary64 value). -/
def exTall : Bitmap := ⟨6, 13, fun _ _ => whitePix⟩

/-- 4×8 all-white bitmap (integer aspect ratio 2). -/
def exAspect2 : Bitmap := ⟨4, 8, fun _ _ => whitePix⟩

/-- The configuration the specification calls invalid: `targetWidth` 0
and `monochromeThreshold` 300 (outside [0, 255]). -/
def invalidCfg : PdfProcessingConfig := ⟨true, ⟨8, 8, 8, 8⟩, 0, 300⟩

/-- A configuration with processing disabled. -/
def disabledCfg : PdfProcessingConfig := ⟨false, ⟨8, 8, 8, 8⟩, 576, 160⟩

/-- A page source whose decode fails at page 2 and succeeds elsewhere. -/
def exFailingSource : Nat → Except String Bitmap :=
  fun k => if k = 2 then Except.error "decode" else Except.ok exBlack8

/-- A page source that always decodes to `exBWB`. -/
def exOkSource : Nat → Except String Bitmap := fun _ => Except.ok exBWB

/-! ## Generic lemmas about scans over index ranges -/

/-- `getD` of a map over `List.range` at an in-range index. -/
theorem getD_map_range {f : Nat → Nat} {n k : Nat} (hk : k < n) :
    ((List.range n).map f).getD k 0 = f k := by
  rw [List.getD_eq_getElem _ _ (by simpa using hk), List.getElem_map, List.getElem_range]

/-- A forward scan over `0, 1, ..., n-1` stopping at the first hit
returns the least index satisfying the predicate. -/
theorem find?_range_some {p : Nat → Bool} {m : Nat} :
    ∀ {n : Nat}, m < n → p m = true → (∀ k < m, p k = false) →
      (List.range n).find? p = some m := by
  intro n
  induction n with
  | zero => intro hm; omega
  | succ n ih =>
    intro hm hp hmin
    rw [List.range_succ, List.find?_append]
    rcases Nat.lt_or_ge m n with h | h
    · rw [ih h hp hmin]; rfl
    · have hmn : m = n := by omega
      subst hmn
      have hnone : (List.range m).find? p = none := by
        rw [List.find?_eq_none]
        intro x hx
        simp [hmin x (List.mem_range.mp hx)]
      rw [hnone, Option.none_or, List.find?_singleton, if_pos hp]

/-- A backward scan over `n-1, ..., 1, 0` stopping at the first hit
returns the greatest index satisfying the predicate. -/
theorem find?_range_reverse_some {p : Nat → Bool} {m : Nat} :
    ∀ {n : Nat}, m < n → p m = true → (∀ k, m < k → k < n → p k = false) →
      (List.range n).reverse.find? p = some m := by
  intro n
  induction n with
  | zero => intro hm; omega
  | succ n ih =>
    intro hm hp hmax
    rw [List.range_succ, List.reverse_append, List.reverse_singleton, List.singleton_append]
    rcases Nat.lt_or_ge m n with h | h
    · rw [List.find?_cons_of_neg _ (by simp [hmax n (by omega) (by omega)])]
      exact ih h hp (fun k hk1 hk2 => hmax k hk1 (by omega))
    · have hmn : m = n := by omega
      subst hmn
      exact List.find?_cons_of_pos _ hp

/-- A forward scan that never hits returns `none`. -/
theorem find?_range_none {p : Nat → Bool} {n : Nat} (h : ∀ k < n, p k = false) :
    (List.range n).find? p = none := by
  rw [List.find?_eq_none]
  intro x hx
  simp [h x (List.mem_range.mp hx)]

/-- A backward scan that never hits returns `none`. -/
theorem find?_range_reverse_none {p : Nat → Bool} {n : Nat} (h : ∀ k < n, p k = false) :
    (List.range n).reverse.find? p = none := by
  rw [List.find?_eq_none]
  intro x hx
  simp [h x (List.mem_range.mp (List.mem_reverse.mp hx))]

/-! ## Characterization of the four edge scans -/

/-- `hasInk` read row-wise. -/
theorem hasInk_iff_row {b : Bitmap} :
    hasInk b ↔ ∃ y < b.height, rowHasInk b y = true := by
  simp only [hasInk, rowHasInk, List.any_eq_true, List.mem_range]
  constructor
  · rintro ⟨x, hx, y, hy, h⟩; exact ⟨y, hy, x, hx, h⟩
  · rintro ⟨y, hy, x, hx, h⟩; exact ⟨x, hx, y, hy, h⟩

/-- `hasInk` read column-wise. -/
theorem hasInk_iff_col {b : Bitmap} :
    hasInk b ↔ ∃ x < b.width, colHasInk b x = true := by
  simp only [hasInk, colHasInk, List.any_eq_true, List.mem_range]

/-- When some row has ink, `contentTop` is the first such row from the
top. -/
theorem contentTop_spec {b : Bitmap} (hc : hasInk b) :
    contentTop b < b.height ∧ rowHasInk b (contentTop b) = true ∧
      ∀ y < contentTop b, rowHasInk b y = false := by
  classical
  obtain ⟨y0, hy0, hr0⟩ := hasInk_iff_row.mp hc
  have hex : ∃ y, y < b.height ∧ rowHasInk b y = true := ⟨y0, hy0, hr0⟩
  have hspec := Nat.find_spec hex
  have hmin : ∀ k < Nat.find hex, rowHasInk b k = false := by
    intro k hk
    have hno := Nat.find_min hex hk
    have hkh : k < b.height := lt_trans hk hspec.1
    cases h : rowHasInk b k
    · rfl
    · exact absurd ⟨hkh, h⟩ hno
  have hfind : (List.range b.height).find? (rowHasInk b) = some (Nat.find hex) :=
    find?_range_some hspec.1 hspec.2 hmin
  unfold contentTop
  rw [hfind]
  exact ⟨hspec.1, hspec.2, hmin⟩

/-- When some row has ink, `contentBottom` is the first such row from
the bottom. -/
theorem contentBottom_spec {b : Bitmap} (hc : hasInk b) :
    contentBottom b < b.height ∧ rowHasInk b (contentBottom b) = true ∧
      ∀ y, contentBottom b < y → y < b.height → rowHasInk b y = false := by
  classical
  obtain ⟨y0, hy0, hr0⟩ := hasInk_iff_row.mp hc
  have hh : 1 ≤ b.height := by omega
  set G := Nat.findGreatest (fun y => rowHasInk b y = true) (b.height - 1) with hG
  have hy0le : y0 ≤ b.height - 1 := by omega
  have hPG : rowHasInk b G = true :=
    Nat.findGreatest_spec (P := fun y => rowHasInk b y = true) hy0le hr0
  have hGle : G ≤ b.height - 1 := Nat.findGreatest_le _
  have hGlt : G < b.height := by omega
  have hmax : ∀ y, G < y → y < b.height → rowHasInk b y = false := by
    intro y hy1 hy2
    have := Nat.findGreatest_is_greatest (P := fun y => rowHasInk b y = true)
      (k := y) hy1 (by omega)
    cases h : rowHasInk b y
    · rfl
    · exact absurd h this
  have hfind : (List.range b.height).reverse.find? (rowHasInk b) = some G :=
    find?_range_reverse_some hGlt hPG hmax
  unfold contentBottom
  rw [hfind]
  exact ⟨hGlt, hPG, hmax⟩

/-- When some column has ink, `contentLeft` is the first such column
from the left. -/
theorem contentLeft_spec {b : Bitmap} (hc : hasInk b) :
    contentLeft b < b.width ∧ colHasInk b (contentLeft b) = true ∧
      ∀ x < contentLeft b, colHasInk b x = false := by
  classical
  obtain ⟨x0, hx0, hr0⟩ := hasInk_iff_col.mp hc
  have hex : ∃ x, x < b.width ∧ colHasInk b x = true := ⟨x0, hx0, hr0⟩
  have hspec := Nat.find_spec hex
  have hmin : ∀ k < Nat.find hex, colHasInk b k = false := by
    intro k hk
    have hno := Nat.find_min hex hk
    have hkw : k < b.width := lt_trans hk hspec.1
    cases h : colHasInk b k
    · rfl
    · exact absurd ⟨hkw, h⟩ hno
  have hfind : (List.range b.width).find? (colHasInk b) = some (Nat.find hex) :=
    find?_range_some hspec.1 hspec.2 hmin
  unfold contentLeft
  rw [hfind]
  exact ⟨hspec.1, hspec.2, hmin⟩

/-- When some column has ink, `contentRight` is the first such column
from the right. -/
theorem contentRight_spec {b : Bitmap} (hc : hasInk b) :
    contentRight b < b.width ∧ colHasInk b (contentRight b) = true ∧
      ∀ x, contentRight b < x → x < b.width → colHasInk b x = false := by
  classical
  obtain ⟨x0, hx0, hr0⟩ := hasInk_iff_col.mp hc
  have hw : 1 ≤ b.width := by omega
  set G := Nat.findGreatest (fun x => colHasInk b x = true) (b.width - 1) with hG
  have hx0le : x0 ≤ b.width - 1 := by omega
  have hPG : colHasInk b G = true :=
    Nat.findGreatest_spec (P := fun x => colHasInk b x = true) hx0le hr0
  have hGle : G ≤ b.width - 1 := Nat.findGreatest_le _
  have hGlt : G < b.width := by omega
  have hmax : ∀ x, G < x → x < b.width → colHasInk b x = false := by
    intro x hx1 hx2
    have := Nat.findGreatest_is_greatest (P := fun x => colHasInk b x = true)
      (k := x) hx1 (by omega)
    cases h : colHasInk b x
    · rfl
    · exact absurd h this
  have hfind : (List.range b.width).reverse.find? (colHasInk b) = some G :=
    find?_range_reverse_some hGlt hPG hmax
  unfold contentRight
  rw [hfind]
  exact ⟨hGlt, hPG, hmax⟩

/-- With no ink anywhere, all four scans keep their initialisers. -/
theorem content_scans_blank {b : Bitmap} (hc : ¬hasInk b) :
    contentTop b = 0 ∧ contentBottom b = b.height - 1 ∧
      contentLeft b = 0 ∧ contentRight b = b.width - 1 := by
  have hrow : ∀ y < b.height, rowHasInk b y = false := by
    intro y hy
    cases h : rowHasInk b y
    · rfl
    · exact absurd (hasInk_iff_row.mpr ⟨y, hy, h⟩) hc
  have hcol : ∀ x < b.width, colHasInk b x = false := by
    intro x hx
    cases h : colHasInk b x
    · rfl
    · exact absurd (hasInk_iff_col.mpr ⟨x, hx, h⟩) hc
  refine ⟨?_, ?_, ?_, ?_⟩
  · unfold contentTop; rw [find?_range_none hrow]; rfl
  · unfold contentBottom; rw [find?_range_reverse_none hrow]; rfl
  · unfold contentLeft; rw [find?_range_none hcol]; rfl
  · unfold contentRight; rw [find?_range_reverse_none hcol]; rfl

/-! ## Correctness of the binary64 rounding model -/

/-- The upward exponent search is correct on `[1, 2^fuel)`. -/
theorem ilog2up_bounds :
    ∀ (fuel : ℕ) (q : ℚ), 1 ≤ q → q < 2 ^ fuel →
      (2 : ℚ) ^ ilog2up fuel q ≤ q ∧ q < 2 ^ (ilog2up fuel q + 1) := by
  intro fuel
  induction fuel with
  | zero =>
    intro q h1 h2
    norm_num at h2
    linarith
  | succ n ih =>
    intro q h1 h2
    simp only [ilog2up]
    by_cases h : q < 2
    · rw [if_pos h]
      simpa using ⟨h1, h⟩
    · rw [if_neg h]
      push_neg at h
      have h1' : 1 ≤ q / 2 := by linarith
      have h2' : q / 2 < 2 ^ n := by
        rw [pow_succ] at h2
        linarith
      obtain ⟨a, b⟩ := ih (q / 2) h1' h2'
      constructor
      · rw [pow_succ]
        linarith
      · rw [pow_succ]
        linarith

/-- The downward search returns 0 as soon as the value reaches 1. -/
theorem ilog2dn_of_one_le (fuel : ℕ) (q : ℚ) (h : 1 ≤ q) : ilog2dn fuel q = 0 := by
  cases fuel <;> simp [ilog2dn, h]

/-- The downward exponent search is correct on `[2^(-fuel), 1)`. -/
theorem ilog2dn_bounds :
    ∀ (fuel : ℕ) (q : ℚ), 0 < q → 1 ≤ q * 2 ^ fuel →
      1 ≤ q * 2 ^ ilog2dn fuel q ∧ (q < 1 → q * 2 ^ ilog2dn fuel q < 2) := by
  intro fuel
  induction fuel with
  | zero =>
    intro q h0 h1
    norm_num at h1
    have h : ilog2dn 0 q = 0 := rfl
    rw [h]
    norm_num
    exact ⟨h1, fun h => by linarith⟩
  | succ n ih =>
    intro q h0 h1
    by_cases hq : 1 ≤ q
    · rw [ilog2dn_of_one_le _ _ hq]
      norm_num
      exact ⟨hq, fun h => by linarith⟩
    · push_neg at hq
      simp only [ilog2dn, if_neg (not_le.mpr hq)]
      have h0' : 0 < q * 2 := by linarith
      have h1' : 1 ≤ q * 2 * 2 ^ n := by
        have e : q * 2 * 2 ^ n = q * 2 ^ (n + 1) := by ring
        rw [e]
        exact h1
      obtain ⟨a, b⟩ := ih (q * 2) h0' h1'
      have e2 : ∀ k : ℕ, q * 2 ^ (k + 1) = q * 2 * 2 ^ k := fun k => by ring
      constructor
      · rw [e2]
        exact a
      · intro _
        rw [e2]
        by_cases hq2 : q * 2 < 1
        · exact b hq2
        · push_neg at hq2
          rw [ilog2dn_of_one_le n _ hq2]
          norm_num
          linarith

/-- Rounding an integer to the nearest integer is the identity. -/
theorem rne_int (k : ℤ) : rne (k : ℚ) = k := by
  rw [rne, Int.floor_intCast]
  norm_num

/-- `rne` preserves nonnegativity. -/
theorem rne_nonneg {q : ℚ} (h : 0 ≤ q) : 0 ≤ rne q := by
  have h0 : 0 ≤ ⌊q⌋ := Int.floor_nonneg.mpr h
  rw [rne]
  split_ifs <;> omega

/-- Evaluation of `fl` at a value in binades `0 ≤ e ≤ 52`: scaling by
`2^(52-e)` lands the significand in `[2^52, 2^53)`. -/
theorem fl_eval_pos {q : ℚ} (u : ℕ) (h1 : 2 ^ u ≤ q) (h2 : q < 2 ^ (u + 1)) (hu : u ≤ 52) :
    fl q = (rne (q * 2 ^ (52 - u)) : ℚ) / 2 ^ (52 - u) := by
  have h2gt1 : (1 : ℚ) < 2 := by norm_num
  have hq1 : 1 ≤ q := le_trans (one_le_pow₀ (by norm_num)) h1
  have hq0 : q ≠ 0 := by linarith
  have hqlt : q < 2 ^ (1100 : ℕ) :=
    lt_of_lt_of_le h2 (pow_le_pow_right₀ (by norm_num) (by omega))
  obtain ⟨a, b⟩ := ilog2up_bounds 1100 q hq1 hqlt
  have huv : ilog2up 1100 q = u := by
    have d1 : u < ilog2up 1100 q + 1 :=
      (pow_lt_pow_iff_right₀ h2gt1).mp (lt_of_le_of_lt h1 b)
    have d2 : ilog2up 1100 q < u + 1 :=
      (pow_lt_pow_iff_right₀ h2gt1).mp (lt_of_le_of_lt a h2)
    omega
  have hilog : ilog2 q = (u : ℤ) := by
    rw [ilog2, if_pos hq1, huv]
  rw [fl, if_neg hq0]
  simp only [hilog]
  have ht1 : ((52 : ℤ) - u).toNat = 52 - u := by omega
  have ht2 : ((u : ℤ) - 52).toNat = 0 := by omega
  rw [ht1, ht2, pow_zero, div_one]

/-- Evaluation of `fl` at a value in binades `e = -(k+1) < 0`: scaling
by `2^(52+k+1)` lands the significand in `[2^52, 2^53)`. -/
theorem fl_eval_neg {q : ℚ} (k : ℕ) (h0 : 0 < q) (h1 : 1 ≤ q * 2 ^ (k + 1))
    (h2 : q * 2 ^ (k + 1) < 2) (hk : k + 1 ≤ 1100) :
    fl q = (rne (q * 2 ^ (52 + (k + 1))) : ℚ) / 2 ^ (52 + (k + 1)) := by
  have hq1 : q < 1 := by
    have hp : (2 : ℚ) ≤ 2 ^ (k + 1) := by
      calc (2 : ℚ) = 2 ^ 1 := (pow_one 2).symm
      _ ≤ 2 ^ (k + 1) := pow_le_pow_right₀ (by norm_num) (by omega)
    nlinarith
  have hq0 : q ≠ 0 := by linarith
  have hge : 1 ≤ q * 2 ^ (1100 : ℕ) := by
    have e : q * 2 ^ (1100 : ℕ) = q * 2 ^ (k + 1) * 2 ^ (1100 - (k + 1)) := by
      rw [mul_assoc, ← pow_add]
      congr 2
      omega
    rw [e]
    nlinarith [one_le_pow₀ (a := (2:ℚ)) (n := 1100 - (k + 1)) (by norm_num)]
  obtain ⟨a, b⟩ := ilog2dn_bounds 1100 q h0 hge
  have hblt := b hq1
  have hdn : ilog2dn 1100 q = k + 1 := by
    by_contra hne
    rcases Nat.lt_or_ge (ilog2dn 1100 q) (k + 1) with hlt | hgt
    · have e : q * 2 ^ (k + 1) = q * 2 ^ ilog2dn 1100 q * 2 ^ (k + 1 - ilog2dn 1100 q) := by
        rw [mul_assoc, ← pow_add]
        congr 2
        omega
      have hp : (2 : ℚ) ≤ 2 ^ (k + 1 - ilog2dn 1100 q) := by
        calc (2 : ℚ) = 2 ^ 1 := (pow_one 2).symm
        _ ≤ _ := pow_le_pow_right₀ (by norm_num) (by omega)
      nlinarith
    · have hgt' : k + 1 < ilog2dn 1100 q := by omega
      have e : q * 2 ^ ilog2dn 1100 q = q * 2 ^ (k + 1) * 2 ^ (ilog2dn 1100 q - (k + 1)) := by
        rw [mul_assoc, ← pow_add]
        congr 2
        omega
      have hp : (2 : ℚ) ≤ 2 ^ (ilog2dn 1100 q - (k + 1)) := by
        calc (2 : ℚ) = 2 ^ 1 := (pow_one 2).symm
        _ ≤ _ := pow_le_pow_right₀ (by norm_num) (by omega)
      nlinarith
  have hilog : ilog2 q = -((k : ℤ) + 1) := by
    rw [ilog2, if_neg (not_le.mpr hq1), hdn]
    push_cast
    ring
  rw [fl, if_neg hq0]
  simp only [hilog]
  have ht1 : ((52 : ℤ) - -((k : ℤ) + 1)).toNat = 52 + (k + 1) := by omega
  have ht2 : ((-((k : ℤ) + 1)) - 52).toNat = 0 := by omega
  rw [ht1, ht2, pow_zero, div_one]

/-- Naturals below `2^53` are exactly representable in binary64. -/
theorem fl_nat (n : ℕ) (h1 : 1 ≤ n) (h2 : n < 2 ^ 53) : fl n = n := by
  have h2gt1 : (1 : ℚ) < 2 := by norm_num
  have hq1 : (1 : ℚ) ≤ n := by exact_mod_cast h1
  have hq0 : (n : ℚ) ≠ 0 := by positivity
  have hqlt53 : (n : ℚ) < 2 ^ 53 := by exact_mod_cast h2
  have hqlt : (n : ℚ) < 2 ^ (1100 : ℕ) :=
    lt_of_lt_of_le hqlt53 (pow_le_pow_right₀ (by norm_num) (by omega))
  obtain ⟨a, b⟩ := ilog2up_bounds 1100 n hq1 hqlt
  have hule : ilog2up 1100 (n : ℚ) ≤ 52 := by
    by_contra h
    push_neg at h
    have : (2 : ℚ) ^ 53 ≤ 2 ^ ilog2up 1100 (n : ℚ) :=
      pow_le_pow_right₀ (by norm_num) (by omega)
    linarith
  have hilog : ilog2 (n : ℚ) = (ilog2up 1100 (n : ℚ) : ℤ) := by
    rw [ilog2, if_pos hq1]
  rw [fl, if_neg hq0]
  simp only [hilog]
  have ht1 : ((52 : ℤ) - ilog2up 1100 (n : ℚ)).toNat = 52 - ilog2up 1100 (n : ℚ) := by omega
  have ht2 : ((ilog2up 1100 (n : ℚ) : ℤ) - 52).toNat = 0 := by omega
  rw [ht1, ht2, pow_zero, div_one]
  have hcast : (n : ℚ) * 2 ^ (52 - ilog2up 1100 (n : ℚ)) =
      ((n * 2 ^ (52 - ilog2up 1100 (n : ℚ)) : ℤ) : ℚ) := by
    push_cast
    ring
  rw [hcast, rne_int]
  push_cast
  have hpow : (2 : ℚ) ^ (52 - ilog2up 1100 (n : ℚ)) ≠ 0 := by positivity
  field_simp

/-- `fl` preserves nonnegativity. -/
theorem fl_nonneg {q : ℚ} (h : 0 ≤ q) : 0 ≤ fl q := by
  rw [fl]
  split_ifs with h0
  · exact le_refl 0
  · dsimp only
    have hqs : 0 ≤ q * (2 ^ ((52 : ℤ) - ilog2 q).toNat / 2 ^ (ilog2 q - 52).toNat) := by
      positivity
    have hr := rne_nonneg hqs
    apply div_nonneg
    · exact_mod_cast hr
    · positivity

/-! ## Concrete binary64 evaluations -/

/-- Rounding zero gives zero. -/
theorem fl_zero : fl 0 = 0 := by
  unfold fl
  simp

/-- Multiplying by zero gives exactly zero. -/
theorem dMul_zero (a : ℚ) : dMul a 0 = 0 := by
  rw [dMul, mul_zero, fl_zero]


/-- The binary64 value of the literal `0.299`. -/
theorem lit299_eval : lit299 = 5386305154335113 / 18014398509481984 := by
  rw [lit299, fl_eval_neg 1 (by norm_num) (by norm_num) (by norm_num) (by norm_num)]
  have h : ⌊(299 / 1000 : ℚ) * 2 ^ (52 + (1 + 1))⌋ = 5386305154335113 := by norm_num
  unfold rne
  rw [h]
  norm_num

/-- The binary64 value of the literal `0.587`. -/
theorem lit587_eval : lit587 = 2643612981266481 / 4503599627370496 := by
  rw [lit587, fl_eval_neg 0 (by norm_num) (by norm_num) (by norm_num) (by norm_num)]
  have h : ⌊(587 / 1000 : ℚ) * 2 ^ (52 + (0 + 1))⌋ = 5287225962532962 := by norm_num
  unfold rne
  rw [h]
  norm_num

/-- The binary64 value of the literal `0.114`. -/
theorem lit114_eval : lit114 = 8214565720323785 / 72057594037927936 := by
  rw [lit114, fl_eval_neg 3 (by norm_num) (by norm_num) (by norm_num) (by norm_num)]
  have h : ⌊(114 / 1000 : ℚ) * 2 ^ (52 + (3 + 1))⌋ = 8214565720323784 := by norm_num
  unfold rne
  rw [h]
  norm_num

/-- The rounded product `0.587 * 72`. -/
theorem p72_eval : dMul lit587 72 = 2974064603924791 / 70368744177664 := by
  rw [dMul, lit587_eval]
  rw [fl_eval_pos 5 (by norm_num) (by norm_num) (by norm_num)]
  have h : ⌊(2643612981266481 / 4503599627370496 * 72 : ℚ) * 2 ^ (52 - 5)⌋ = 5948129207849582 := by norm_num
  unfold rne
  rw [h]
  norm_num

/-- The rounded product `0.114 * 24`. -/
theorem p24_eval : dMul lit114 24 = 6160924290242839 / 2251799813685248 := by
  rw [dMul, lit114_eval]
  rw [fl_eval_pos 1 (by norm_num) (by norm_num) (by norm_num)]
  have h : ⌊(8214565720323785 / 72057594037927936 * 24 : ℚ) * 2 ^ (52 - 1)⌋ = 6160924290242838 := by norm_num
  unfold rne
  rw [h]
  norm_num

/-- Adding the zero red term leaves the green term unchanged. -/
theorem s0_eval : dAdd 0 (2974064603924791 / 70368744177664) = 2974064603924791 / 70368744177664 := by
  rw [dAdd]
  rw [fl_eval_pos 5 (by norm_num) (by norm_num) (by norm_num)]
  have h : ⌊(0 + (2974064603924791 / 70368744177664) : ℚ) * 2 ^ (52 - 5)⌋ = 5948129207849582 := by norm_num
  unfold rne
  rw [h]
  norm_num

/-- The rounded sum giving the binary64 luminance of (0, 72, 24). -/
theorem lum_eval : dAdd (2974064603924791 / 70368744177664) (6160924290242839 / 2251799813685248) = 6333186975989759 / 140737488355328 := by
  rw [dAdd]
  rw [fl_eval_pos 5 (by norm_num) (by norm_num) (by norm_num)]
  have h : ⌊((2974064603924791 / 70368744177664) + (6160924290242839 / 2251799813685248) : ℚ) * 2 ^ (52 - 5)⌋ = 6333186975989759 := by norm_num
  unfold rne
  rw [h]
  norm_num

/-- The rounded product `0.299 * 255`. -/
theorem w299_eval : dMul lit299 255 = 5365264899825991 / 70368744177664 := by
  rw [dMul, lit299_eval]
  rw [fl_eval_pos 6 (by norm_num) (by norm_num) (by norm_num)]
  have h : ⌊(5386305154335113 / 18014398509481984 * 255 : ℚ) * 2 ^ (52 - 6)⌋ = 5365264899825991 := by norm_num
  unfold rne
  rw [h]
  norm_num

/-- The rounded product `0.587 * 255`. -/
theorem w587_eval : dMul lit587 255 = 2633286368058409 / 17592186044416 := by
  rw [dMul, lit587_eval]
  rw [fl_eval_pos 7 (by norm_num) (by norm_num) (by norm_num)]
  have h : ⌊(2643612981266481 / 4503599627370496 * 255 : ℚ) * 2 ^ (52 - 7)⌋ = 5266572736116817 := by norm_num
  unfold rne
  rw [h]
  norm_num

/-- The rounded product `0.114 * 255`. -/
theorem w114_eval : dMul lit114 255 = 4091238786489385 / 140737488355328 := by
  rw [dMul, lit114_eval]
  rw [fl_eval_pos 4 (by norm_num) (by norm_num) (by norm_num)]
  have h : ⌊(8214565720323785 / 72057594037927936 * 255 : ℚ) * 2 ^ (52 - 4)⌋ = 8182477572978770 := by norm_num
  unfold rne
  rw [h]
  norm_num

/-- The rounded sum of the red and green terms of a white pixel (an exact tie, rounded to even). -/
theorem ws_eval : dAdd (5365264899825991 / 70368744177664) (2633286368058409 / 17592186044416) = 3974602593014907 / 17592186044416 := by
  rw [dAdd]
  rw [fl_eval_pos 7 (by norm_num) (by norm_num) (by norm_num)]
  have h : ⌊((5365264899825991 / 70368744177664) + (2633286368058409 / 17592186044416) : ℚ) * 2 ^ (52 - 7)⌋ = 7949205186029813 := by norm_num
  unfold rne
  rw [h]
  norm_num

/-- The binary64 luminance of pure white is exactly 255. -/
theorem wl_eval : dAdd (3974602593014907 / 17592186044416) (4091238786489385 / 140737488355328) = 255 := by
  rw [dAdd]
  rw [fl_eval_pos 7 (by norm_num) (by norm_num) (by norm_num)]
  have h : ⌊((3974602593014907 / 17592186044416) + (4091238786489385 / 140737488355328) : ℚ) * 2 ^ (52 - 7)⌋ = 8972014882652160 := by norm_num
  unfold rne
  rw [h]
  norm_num

/-- The rounded quotient `13 / 6` (not exactly representable). -/
theorem r136_eval : dDiv 13 6 = 4878899596318037 / 2251799813685248 := by
  rw [dDiv]
  rw [fl_eval_pos 1 (by norm_num) (by norm_num) (by norm_num)]
  have h : ⌊(13 / 6 : ℚ) * 2 ^ (52 - 1)⌋ = 4878899596318037 := by norm_num
  unfold rne
  rw [h]
  norm_num

/-- The rounded product `27 * fl(13/6)`, just below 58.5. -/
theorem h27_eval : dMul 27 (4878899596318037 / 2251799813685248) = 8233143068786687 / 140737488355328 := by
  rw [dMul]
  rw [fl_eval_pos 5 (by norm_num) (by norm_num) (by norm_num)]
  have h : ⌊(27 * (4878899596318037 / 2251799813685248) : ℚ) * 2 ^ (52 - 5)⌋ = 8233143068786687 := by norm_num
  unfold rne
  rw [h]
  norm_num

/-- The binary64 luminance of the pixel (0, 72, 24): just below 45,
although the exact rational luminance is exactly 45. -/
theorem dLum_boundary : dLum ⟨0, 72, 24⟩ = 6333186975989759 / 140737488355328 := by
  simp only [dLum]
  push_cast
  rw [dMul_zero, p72_eval, p24_eval, s0_eval, lum_eval]

/-- The binary64 luminance of pure white is exactly 255. -/
theorem dLum_white : dLum whitePix = 255 := by
  simp only [dLum, whitePix]
  push_cast
  rw [w299_eval, w587_eval, w114_eval, ws_eval, wl_eval]

/-- The binary64 luminance of pure black is exactly 0. -/
theorem dLum_black : dLum blackPix = 0 := by
  simp only [dLum, blackPix]
  push_cast
  rw [dMul_zero, dMul_zero, dMul_zero]
  have h00 : dAdd 0 0 = 0 := by rw [dAdd, add_zero, fl_zero]
  rw [h00, h00]

/-! ## The rasterizer's packing structure -/

/-- The per-byte fold is the explicit eight-bit assembly. -/
theorem rasterByte_eq_mkByte (b : Bitmap) (t : ℚ) (y i : Nat) :
    rasterByte b t y i =
      mkByte (isBlack b t (8 * i + 0) y) (isBlack b t (8 * i + 1) y)
        (isBlack b t (8 * i + 2) y) (isBlack b t (8 * i + 3) y)
        (isBlack b t (8 * i + 4) y) (isBlack b t (8 * i + 5) y)
        (isBlack b t (8 * i + 6) y) (isBlack b t (8 * i + 7) y) := rfl

/-- Bit `7 - j` of the assembled byte is the `j`-th ink flag:
most-significant-bit first. -/
theorem mkByte_testBit :
    ∀ (b0 b1 b2 b3 b4 b5 b6 b7 : Bool), ∀ j < 8,
      (mkByte b0 b1 b2 b3 b4 b5 b6 b7).testBit (7 - j) =
        [b0, b1, b2, b3, b4, b5, b6, b7].getD j false := by decide

/-- C1 (amended): for every bitmap, threshold, row `y`, byte-in-row `i`
and bit position `j < 8`, bit `7 - j` (MSB first) of raster byte
`y * bytesPerLine + i` is set iff the binary64 luminance
`0.299*R + 0.587*G + 0.114*B` (as the code computes it in doubles) of
the pixel in column `min (8*i + j) (width - 1)` — the clamped read for
padding columns — is strictly below the threshold; packing is
row-major. -/
theorem raster_bit_spec (b : Bitmap) (t : ℚ) (y i j : Nat)
    (hy : y < b.height) (hi : i < bytesPerLine b.width) (hj : j < 8) :
    ((canvasToRasterData b t).getD (y * bytesPerLine b.width + i) 0).testBit (7 - j) =
      decide (dLum (b.px (min (8 * i + j) (b.width - 1)) y) < t) := by
  have hbpl : 0 < bytesPerLine b.width := lt_of_le_of_lt (Nat.zero_le i) hi
  have hidx : y * bytesPerLine b.width + i < bytesPerLine b.width * b.height := by
    have h1 : y * bytesPerLine b.width + i < (y + 1) * bytesPerLine b.width := by
      rw [add_mul, one_mul]
      omega
    have h2 : (y + 1) * bytesPerLine b.width ≤ b.height * bytesPerLine b.width :=
      Nat.mul_le_mul_right _ (by omega)
    calc y * bytesPerLine b.width + i < (y + 1) * bytesPerLine b.width := h1
    _ ≤ b.height * bytesPerLine b.width := h2
    _ = bytesPerLine b.width * b.height := Nat.mul_comm _ _
  rw [canvasToRasterData, getD_map_range hidx]
  have hdi : (y * bytesPerLine b.width + i) / bytesPerLine b.width = y := by
    rw [Nat.add_comm, Nat.mul_comm, Nat.add_mul_div_left _ _ hbpl, Nat.div_eq_of_lt hi,
      Nat.zero_add]
  have hmi : (y * bytesPerLine b.width + i) % bytesPerLine b.width = i := by
    rw [Nat.add_comm, Nat.mul_comm, Nat.add_mul_mod_self_left, Nat.mod_eq_of_lt hi]
  rw [hdi, hmi, rasterByte_eq_mkByte, mkByte_testBit _ _ _ _ _ _ _ _ j hj]
  interval_cases j <;> simp [isBlack]

/-- Witness for C1's amended theorem: the white middle pixel of the
3×1 black-white-black bitmap at threshold 160, bit 6 of byte 0. -/
theorem raster_bit_spec_witness :
    ((canvasToRasterData exBWB 160).getD (0 * bytesPerLine exBWB.width + 0) 0).testBit (7 - 1) =
      decide (dLum (exBWB.px (min (8 * 0 + 1) (exBWB.width - 1)) 0) < 160) :=
  raster_bit_spec exBWB 160 0 0 1 (by decide) (by decide) (by decide)

/-- C1 as frozen is false on the code: at the pixel (0, 72, 24) and
threshold 45 the exact luminance is exactly 45 (so the claim's
`L < threshold` is false and the bit should be 0), yet the code's
binary64 luminance is just below 45 and the bit is set. -/
theorem raster_bit_exact_luminance_cex :
    ¬(((canvasToRasterData exBoundary 45).getD 0 0).testBit 7 = true ↔
        specLum (exBoundary.px 0 0) < 45) := by
  have hlt : dLum ⟨0, 72, 24⟩ < 45 := by
    rw [dLum_boundary]
    norm_num
  have hbit : ∀ x y, isBlack exBoundary 45 x y = true := by
    intro x y
    unfold isBlack
    exact decide_eq_true hlt
  have h255 : rasterByte exBoundary 45 0 0 = 255 := by
    simp only [rasterByte_eq_mkByte, hbit]
    decide
  have h0 : (canvasToRasterData exBoundary 45).getD 0 0 = 255 := by
    rw [canvasToRasterData,
      getD_map_range (by decide : (0 : ℕ) < bytesPerLine exBoundary.width * exBoundary.height)]
    exact h255
  intro hiff
  have hlum : specLum (exBoundary.px 0 0) < 45 := hiff.mp (by rw [h0]; decide)
  have heq : specLum (exBoundary.px 0 0) = 45 := by
    show specLum ⟨0, 72, 24⟩ = 45
    simp only [specLum]
    norm_num
  rw [heq] at hlum
  exact absurd hlum (by norm_num)

/-- The byte count per row, `Math.ceil(width / 8)`, equals the integer
computation `(width + 7) / 8`. -/
theorem ceil_div_eight (w : ℕ) : ⌈(w : ℚ) / 8⌉₊ = (w + 7) / 8 := by
  rcases Nat.eq_zero_or_pos w with h | h
  · subst h
    norm_num
  · have hn : (w + 7) / 8 ≠ 0 := by omega
    rw [Nat.ceil_eq_iff hn]
    constructor
    · rw [lt_div_iff (by norm_num : (0 : ℚ) < 8)]
      have hnat : ((w + 7) / 8 - 1) * 8 < w := by omega
      exact_mod_cast hnat
    · rw [div_le_iff (by norm_num : (0 : ℚ) < 8)]
      have hnat : w ≤ (w + 7) / 8 * 8 := by omega
      exact_mod_cast hnat

/-- C5: for every bitmap of positive dimensions and every threshold,
the packed raster buffer (before text encoding) holds exactly
`ceil(width / 8) * height` bytes. -/
theorem raster_length_spec (b : Bitmap) (t : ℚ) (hw : 1 ≤ b.width) (hh : 1 ≤ b.height) :
    (canvasToRasterData b t).length = ⌈(b.width : ℚ) / 8⌉₊ * b.height := by
  rw [canvasToRasterData, List.length_map, List.length_range, ceil_div_eight]
  rfl

/-- Witness for C5: the 3×1 bitmap yields `ceil(3/8) * 1 = 1` byte. -/
theorem raster_length_spec_witness :
    (canvasToRasterData exBWB 160).length = ⌈(exBWB.width : ℚ) / 8⌉₊ * exBWB.height :=
  raster_length_spec exBWB 160 (by decide) (by decide)

/-- C8 (amended): when every pixel of the bitmap is classified
uniformly by the code's binary64 luminance test (`c = true`: every
pixel's computed luminance is below the threshold; `c = false`: none
is), the raster buffer is uniformly `255` (every bit set, including
the clamp-padded columns, which replicate the last real column) or
uniformly `0`. -/
theorem raster_uniform_spec (b : Bitmap) (t : ℚ) (c : Bool) (hw : 1 ≤ b.width)
    (hpix : ∀ x < b.width, ∀ y < b.height, decide (dLum (b.px x y) < t) = c) :
    canvasToRasterData b t =
      List.replicate (bytesPerLine b.width * b.height) (if c then 255 else 0) := by
  rw [canvasToRasterData, List.eq_replicate_iff]
  constructor
  · rw [List.length_map, List.length_range]
  · intro v hv
    rw [List.mem_map] at hv
    obtain ⟨bi, hbi, hveq⟩ := hv
    rw [List.mem_range] at hbi
    have hbpl : 0 < bytesPerLine b.width := by
      unfold bytesPerLine
      omega
    have hy : bi / bytesPerLine b.width < b.height := by
      rw [Nat.div_lt_iff_lt_mul hbpl, Nat.mul_comm]
      exact hbi
    have hb : ∀ x, isBlack b t x (bi / bytesPerLine b.width) = c := by
      intro x
      unfold isBlack
      exact hpix _ (by omega) _ hy
    rw [← hveq, rasterByte_eq_mkByte]
    simp only [hb]
    cases c <;> decide

/-- Witness for C8's amended theorem: the all-black 8×1 bitmap at
threshold 160 rasterizes to a single 255 byte. -/
theorem raster_uniform_spec_witness :
    canvasToRasterData exBlack8 160 =
      List.replicate (bytesPerLine exBlack8.width * exBlack8.height) (if true then 255 else 0) := by
  apply raster_uniform_spec exBlack8 160 true (by decide)
  intro x hx y hy
  have h : dLum (exBlack8.px x y) < 160 := by
    show dLum blackPix < 160
    rw [dLum_black]
    norm_num
  exact decide_eq_true h

/-- C8 as frozen is false on the code: every pixel of the 8×1 bitmap
of (0, 72, 24) has exact luminance exactly 45, hence `≥ threshold` at
threshold 45, yet the output is not the all-zero buffer (the binary64
luminance falls just below 45, so every bit is set). -/
theorem raster_uniform_exact_cex :
    (∀ x < exBoundary8.width, ∀ y < exBoundary8.height,
        ¬(specLum (exBoundary8.px x y) < 45)) ∧
      canvasToRasterData exBoundary8 45 ≠
        List.replicate (bytesPerLine exBoundary8.width * exBoundary8.height) 0 := by
  constructor
  · intro x hx y hy
    show ¬(specLum ⟨0, 72, 24⟩ < 45)
    simp only [specLum]
    norm_num
  · have hlt : dLum ⟨0, 72, 24⟩ < 45 := by
      rw [dLum_boundary]
      norm_num
    have hbit : ∀ x y, isBlack exBoundary8 45 x y = true := by
      intro x y
      unfold isBlack
      exact decide_eq_true hlt
    have h255 : rasterByte exBoundary8 45 0 0 = 255 := by
      simp only [rasterByte_eq_mkByte, hbit]
      decide
    intro hrep
    have h0 : (canvasToRasterData exBoundary8 45).getD 0 0 = 255 := by
      rw [canvasToRasterData,
        getD_map_range
          (by decide : (0 : ℕ) < bytesPerLine exBoundary8.width * exBoundary8.height)]
      exact h255
    rw [hrep] at h0
    have hz : (List.replicate (bytesPerLine exBoundary8.width * exBoundary8.height) 0).getD 0 0
        = 0 := by decide
    rw [hz] at h0
    exact absurd h0 (by decide)

/-! ## The margin trimmer -/

/-- A row has ink iff some in-range pixel of it is non-white. -/
theorem rowHasInk_iff_ink {b : Bitmap} {y : Nat} :
    rowHasInk b y = true ↔ ∃ x < b.width, isNonWhite (b.px x y) = true := by
  simp [rowHasInk, List.any_eq_true, List.mem_range]

/-- A column has ink iff some in-range pixel of it is non-white. -/
theorem colHasInk_iff_ink {b : Bitmap} {x : Nat} :
    colHasInk b x = true ↔ ∃ y < b.height, isNonWhite (b.px x y) = true := by
  simp [colHasInk, List.any_eq_true, List.mem_range]

/-- Every in-bounds non-white pixel lies inside the scanned content
box. -/
theorem ink_within_content {b : Bitmap} (hc : hasInk b) {x y : Nat}
    (hx : x < b.width) (hy : y < b.height) (hnw : isNonWhite (b.px x y) = true) :
    contentLeft b ≤ x ∧ x ≤ contentRight b ∧ contentTop b ≤ y ∧ y ≤ contentBottom b := by
  obtain ⟨-, -, hTmin⟩ := contentTop_spec hc
  obtain ⟨-, -, hBmax⟩ := contentBottom_spec hc
  obtain ⟨-, -, hLmin⟩ := contentLeft_spec hc
  obtain ⟨-, -, hRmax⟩ := contentRight_spec hc
  have hrow : rowHasInk b y = true := rowHasInk_iff_ink.mpr ⟨x, hx, hnw⟩
  have hcol : colHasInk b x = true := colHasInk_iff_ink.mpr ⟨y, hy, hnw⟩
  refine ⟨?_, ?_, ?_, ?_⟩
  · by_contra h
    push_neg at h
    rw [hLmin x h] at hcol
    simp at hcol
  · by_contra h
    push_neg at h
    rw [hRmax x h hx] at hcol
    simp at hcol
  · by_contra h
    push_neg at h
    rw [hTmin y h] at hrow
    simp at hrow
  · by_contra h
    push_neg at h
    rw [hBmax y h hy] at hrow
    simp at hrow

/-- The content box is well ordered when ink exists. -/
theorem content_box_ordered {b : Bitmap} (hc : hasInk b) :
    contentTop b ≤ contentBottom b ∧ contentLeft b ≤ contentRight b := by
  obtain ⟨hTlt, hTink, -⟩ := contentTop_spec hc
  obtain ⟨hLlt, hLink, -⟩ := contentLeft_spec hc
  obtain ⟨x, hx, hnw⟩ := rowHasInk_iff_ink.mp hTink
  obtain ⟨y, hy, hnw2⟩ := colHasInk_iff_ink.mp hLink
  have h1 := ink_within_content hc hx hTlt hnw
  have h2 := ink_within_content hc hLlt hy hnw2
  exact ⟨h1.2.2.2, h2.2.1⟩

/-- C2: the trimmer computes the content box as the first row/column
from each edge containing a pixel with any of R, G, B below 250 (the
scan initialisers standing when no such row/column exists), expands it
by the margins with clamping (built into `trimTop`/`trimBottom`/
`trimLeft`/`trimRight`), returns the input bitmap unchanged exactly
when the expanded box reaches `width - 10` by `height - 10`, and
otherwise returns the crop of exactly that box; a bitmap with no
non-white pixel is returned unchanged. -/
theorem trim_spec (b : Bitmap) (m : Margins) (hw : 1 ≤ b.width) (hh : 1 ≤ b.height) :
    (∀ y, rowHasInk b y = true ↔ ∃ x < b.width,
        ((b.px x y).r < 250 ∨ (b.px x y).g < 250 ∨ (b.px x y).b < 250)) ∧
    (∀ x, colHasInk b x = true ↔ ∃ y < b.height,
        ((b.px x y).r < 250 ∨ (b.px x y).g < 250 ∨ (b.px x y).b < 250)) ∧
    (hasInk b →
      (rowHasInk b (contentTop b) = true ∧ ∀ y < contentTop b, rowHasInk b y = false) ∧
      (contentBottom b < b.height ∧ rowHasInk b (contentBottom b) = true ∧
        ∀ y, contentBottom b < y → y < b.height → rowHasInk b y = false) ∧
      (colHasInk b (contentLeft b) = true ∧ ∀ x < contentLeft b, colHasInk b x = false) ∧
      (contentRight b < b.width ∧ colHasInk b (contentRight b) = true ∧
        ∀ x, contentRight b < x → x < b.width → colHasInk b x = false)) ∧
    (trimCanvasMargins b m = b ↔
      b.width - 10 ≤ trimNewWidth b m ∧ b.height - 10 ≤ trimNewHeight b m) ∧
    (¬(b.width - 10 ≤ trimNewWidth b m ∧ b.height - 10 ≤ trimNewHeight b m) →
      trimCanvasMargins b m =
        cropBitmap b (trimLeft b m) (trimTop b m) (trimNewWidth b m) (trimNewHeight b m)) ∧
    (¬hasInk b → trimCanvasMargins b m = b) := by
  have hcrop : ¬(b.width - 10 ≤ trimNewWidth b m ∧ b.height - 10 ≤ trimNewHeight b m) →
      trimCanvasMargins b m =
        cropBitmap b (trimLeft b m) (trimTop b m) (trimNewWidth b m) (trimNewHeight b m) := by
    intro hcond
    unfold trimCanvasMargins
    rw [if_neg hcond]
  refine ⟨?_, ?_, ?_, ?_, hcrop, ?_⟩
  · intro y
    rw [rowHasInk_iff_ink]
    simp [isNonWhite, or_assoc]
  · intro x
    rw [colHasInk_iff_ink]
    simp [isNonWhite, or_assoc]
  · intro hc
    obtain ⟨hTlt, hTink, hTmin⟩ := contentTop_spec hc
    obtain ⟨hBlt, hBink, hBmax⟩ := contentBottom_spec hc
    obtain ⟨hLlt, hLink, hLmin⟩ := contentLeft_spec hc
    obtain ⟨hRlt, hRink, hRmax⟩ := contentRight_spec hc
    exact ⟨⟨hTink, hTmin⟩, ⟨hBlt, hBink, hBmax⟩, ⟨hLink, hLmin⟩, ⟨hRlt, hRink, hRmax⟩⟩
  · constructor
    · intro htrim
      by_contra hcond
      have h := hcrop hcond
      rw [htrim] at h
      have hwidth := congrArg Bitmap.width h
      have hheight := congrArg Bitmap.height h
      simp only [cropBitmap] at hwidth hheight
      push_neg at hcond
      rcases Nat.lt_or_ge (trimNewWidth b m) (b.width - 10) with hlt | hge
      · omega
      · have := hcond hge
        omega
    · intro hcond
      unfold trimCanvasMargins
      rw [if_pos hcond]
  · intro hblank
    obtain ⟨ht, hb2, hl, hr⟩ := content_scans_blank hblank
    unfold trimCanvasMargins
    rw [if_pos]
    constructor
    · unfold trimNewWidth trimRight trimLeft
      rw [hl, hr]
      omega
    · unfold trimNewHeight trimBottom trimTop
      rw [ht, hb2]
      omega

/-- Witness for C2: a 15×15 bitmap with one black pixel at (7, 7) and
margins 1 is cropped to the expanded content box. -/
theorem trim_spec_witness :
    trimCanvasMargins exDot ⟨1, 1, 1, 1⟩ =
      cropBitmap exDot (trimLeft exDot ⟨1, 1, 1, 1⟩) (trimTop exDot ⟨1, 1, 1, 1⟩)
        (trimNewWidth exDot ⟨1, 1, 1, 1⟩) (trimNewHeight exDot ⟨1, 1, 1, 1⟩) :=
  (trim_spec exDot ⟨1, 1, 1, 1⟩ (by decide) (by decide)).2.2.2.2.1 (by decide)

/-- Scanning a crop that contains the whole content box finds the
translated content box: crops preserve pixels, so the first inked
row/column from each edge shifts by exactly the crop offset. -/
theorem content_scans_of_crop (b : Bitmap) (lf tp nW nH : Nat) (hc : hasInk b)
    (hlfL : lf ≤ contentLeft b) (htpT : tp ≤ contentTop b)
    (hRr : contentRight b < lf + nW) (hBb : contentBottom b < tp + nH)
    (hwb : lf + nW ≤ b.width) (hhb : tp + nH ≤ b.height) :
    contentTop (cropBitmap b lf tp nW nH) = contentTop b - tp ∧
      contentBottom (cropBitmap b lf tp nW nH) = contentBottom b - tp ∧
      contentLeft (cropBitmap b lf tp nW nH) = contentLeft b - lf ∧
      contentRight (cropBitmap b lf tp nW nH) = contentRight b - lf := by
  obtain ⟨hTlt, hTink, hTmin⟩ := contentTop_spec hc
  obtain ⟨hBlt, hBink, hBmax⟩ := contentBottom_spec hc
  obtain ⟨hLlt, hLink, hLmin⟩ := contentLeft_spec hc
  obtain ⟨hRlt, hRink, hRmax⟩ := contentRight_spec hc
  obtain ⟨hTB, hLR⟩ := content_box_ordered hc
  have hrowc : ∀ y, rowHasInk (cropBitmap b lf tp nW nH) y = true ↔
      ∃ x < nW, isNonWhite (b.px (lf + x) (tp + y)) = true := by
    intro y
    rw [rowHasInk_iff_ink]
    simp [cropBitmap]
  have hcolc : ∀ x, colHasInk (cropBitmap b lf tp nW nH) x = true ↔
      ∃ y < nH, isNonWhite (b.px (lf + x) (tp + y)) = true := by
    intro x
    rw [colHasInk_iff_ink]
    simp [cropBitmap]
  obtain ⟨xT, hxT, hnwT⟩ := rowHasInk_iff_ink.mp hTink
  obtain ⟨hxTL, hxTR, -, -⟩ := ink_within_content hc hxT hTlt hnwT
  obtain ⟨xB, hxB, hnwB⟩ := rowHasInk_iff_ink.mp hBink
  obtain ⟨hxBL, hxBR, -, -⟩ := ink_within_content hc hxB hBlt hnwB
  obtain ⟨yL, hyL, hnwL⟩ := colHasInk_iff_ink.mp hLink
  obtain ⟨-, -, hyLT, hyLB⟩ := ink_within_content hc hLlt hyL hnwL
  obtain ⟨yR, hyR, hnwR⟩ := colHasInk_iff_ink.mp hRink
  obtain ⟨-, -, hyRT, hyRB⟩ := ink_within_content hc hRlt hyR hnwR
  have hch : (cropBitmap b lf tp nW nH).height = nH := rfl
  have hcWd : (cropBitmap b lf tp nW nH).width = nW := rfl
  refine ⟨?_, ?_, ?_, ?_⟩
  · have hfind : (List.range (cropBitmap b lf tp nW nH).height).find?
        (rowHasInk (cropBitmap b lf tp nW nH)) = some (contentTop b - tp) := by
      rw [hch]
      apply find?_range_some
      · omega
      · rw [hrowc]
        refine ⟨xT - lf, by omega, ?_⟩
        have hx : lf + (xT - lf) = xT := by omega
        have hy : tp + (contentTop b - tp) = contentTop b := by omega
        rw [hx, hy]
        exact hnwT
      · intro k hk
        cases hrk : rowHasInk (cropBitmap b lf tp nW nH) k
        · rfl
        · exfalso
          obtain ⟨x, hxlt, hnw⟩ := (hrowc k).mp hrk
          have hr := rowHasInk_iff_ink.mpr ⟨lf + x, by omega, hnw⟩
          rw [hTmin (tp + k) (by omega)] at hr
          simp at hr
    unfold contentTop
    rw [hfind]
    rfl
  · have hfind : (List.range (cropBitmap b lf tp nW nH).height).reverse.find?
        (rowHasInk (cropBitmap b lf tp nW nH)) = some (contentBottom b - tp) := by
      rw [hch]
      apply find?_range_reverse_some
      · omega
      · rw [hrowc]
        refine ⟨xB - lf, by omega, ?_⟩
        have hx : lf + (xB - lf) = xB := by omega
        have hy : tp + (contentBottom b - tp) = contentBottom b := by omega
        rw [hx, hy]
        exact hnwB
      · intro k hk1 hk2
        cases hrk : rowHasInk (cropBitmap b lf tp nW nH) k
        · rfl
        · exfalso
          obtain ⟨x, hxlt, hnw⟩ := (hrowc k).mp hrk
          have hr := rowHasInk_iff_ink.mpr ⟨lf + x, by omega, hnw⟩
          rw [hBmax (tp + k) (by omega) (by omega)] at hr
          simp at hr
    unfold contentBottom
    rw [hfind]
    rfl
  · have hfind : (List.range (cropBitmap b lf tp nW nH).width).find?
        (colHasInk (cropBitmap b lf tp nW nH)) = some (contentLeft b - lf) := by
      rw [hcWd]
      apply find?_range_some
      · omega
      · rw [hcolc]
        refine ⟨yL - tp, by omega, ?_⟩
        have hx : lf + (contentLeft b - lf) = contentLeft b := by omega
        have hy : tp + (yL - tp) = yL := by omega
        rw [hx, hy]
        exact hnwL
      · intro k hk
        cases hrk : colHasInk (cropBitmap b lf tp nW nH) k
        · rfl
        · exfalso
          obtain ⟨y, hylt, hnw⟩ := (hcolc k).mp hrk
          have hr := colHasInk_iff_ink.mpr ⟨tp + y, by omega, hnw⟩
          rw [hLmin (lf + k) (by omega)] at hr
          simp at hr
    unfold contentLeft
    rw [hfind]
    rfl
  · have hfind : (List.range (cropBitmap b lf tp nW nH).width).reverse.find?
        (colHasInk (cropBitmap b lf tp nW nH)) = some (contentRight b - lf) := by
      rw [hcWd]
      apply find?_range_reverse_some
      · omega
      · rw [hcolc]
        refine ⟨yR - tp, by omega, ?_⟩
        have hx : lf + (contentRight b - lf) = contentRight b := by omega
        have hy : tp + (yR - tp) = yR := by omega
        rw [hx, hy]
        exact hnwR
      · intro k hk1 hk2
        cases hrk : colHasInk (cropBitmap b lf tp nW nH) k
        · rfl
        · exfalso
          obtain ⟨y, hylt, hnw⟩ := (hcolc k).mp hrk
          have hr := colHasInk_iff_ink.mpr ⟨tp + y, by omega, hnw⟩
          rw [hRmax (lf + k) (by omega) (by omega)] at hr
          simp at hr
    unfold contentRight
    rw [hfind]
    rfl

/-- C9: the trimmer is idempotent under repetition with the same
margins.  When the first pass returns the input unchanged the second
pass sees the same bitmap; when the first pass cropped to the
margin-expanded content box, the second scan finds the translated box
flush with the crop edges, the margin expansion saturates at the crop
bounds, and the zero-slack early return fires — covering in
particular the zero-margin case. -/
theorem trim_idempotent (b : Bitmap) (m : Margins) :
    trimCanvasMargins (trimCanvasMargins b m) m = trimCanvasMargins b m := by
  by_cases hcond : b.width - 10 ≤ trimNewWidth b m ∧ b.height - 10 ≤ trimNewHeight b m
  · have h1 : trimCanvasMargins b m = b := by
      unfold trimCanvasMargins
      rw [if_pos hcond]
    rw [h1]
    exact h1
  · have hc : hasInk b := by
      by_contra hblank
      obtain ⟨ht, hb2, hl, hr⟩ := content_scans_blank hblank
      apply hcond
      constructor
      · unfold trimNewWidth trimRight trimLeft
        rw [hl, hr]
        omega
      · unfold trimNewHeight trimBottom trimTop
        rw [ht, hb2]
        omega
    obtain ⟨hTlt, -, -⟩ := contentTop_spec hc
    obtain ⟨hBlt, -, -⟩ := contentBottom_spec hc
    obtain ⟨hLlt, -, -⟩ := contentLeft_spec hc
    obtain ⟨hRlt, -, -⟩ := contentRight_spec hc
    obtain ⟨hTB, hLR⟩ := content_box_ordered hc
    have e1 : trimTop b m = contentTop b - m.top := rfl
    have e2 : trimBottom b m = min (b.height - 1) (contentBottom b + m.bottom) := rfl
    have e3 : trimLeft b m = contentLeft b - m.left := rfl
    have e4 : trimRight b m = min (b.width - 1) (contentRight b + m.right) := rfl
    have e5 : trimNewWidth b m = trimRight b m - trimLeft b m + 1 := rfl
    have e6 : trimNewHeight b m = trimBottom b m - trimTop b m + 1 := rfl
    have hA : trimLeft b m ≤ contentLeft b := by
      rw [e3]
      omega
    have hB2 : trimTop b m ≤ contentTop b := by
      rw [e1]
      omega
    have hC : contentRight b < trimLeft b m + trimNewWidth b m := by
      rw [e5, e4, e3]
      clear * - hLR hRlt
      omega
    have hD : contentBottom b < trimTop b m + trimNewHeight b m := by
      rw [e6, e2, e1]
      clear * - hTB hBlt
      omega
    have hE : trimLeft b m + trimNewWidth b m ≤ b.width := by
      rw [e5, e4, e3]
      clear * - hLR hRlt hLlt
      omega
    have hF : trimTop b m + trimNewHeight b m ≤ b.height := by
      rw [e6, e2, e1]
      clear * - hTB hBlt hTlt
      omega
    obtain ⟨sT, sB, sL, sR⟩ := content_scans_of_crop b (trimLeft b m) (trimTop b m)
      (trimNewWidth b m) (trimNewHeight b m) hc hA hB2 hC hD hE hF
    have hcrop1 : trimCanvasMargins b m =
        cropBitmap b (trimLeft b m) (trimTop b m) (trimNewWidth b m) (trimNewHeight b m) := by
      unfold trimCanvasMargins
      rw [if_neg hcond]
    obtain ⟨c, hcdef⟩ : ∃ c', c' =
        cropBitmap b (trimLeft b m) (trimTop b m) (trimNewWidth b m) (trimNewHeight b m) :=
      ⟨_, rfl⟩
    rw [← hcdef] at sT sB sL sR
    have hcw : c.width = trimNewWidth b m := by
      rw [hcdef]
      rfl
    have hch : c.height = trimNewHeight b m := by
      rw [hcdef]
      rfl
    have g1 : trimTop c m = contentTop c - m.top := rfl
    have g2 : trimBottom c m = min (c.height - 1) (contentBottom c + m.bottom) := rfl
    have g3 : trimLeft c m = contentLeft c - m.left := rfl
    have g4 : trimRight c m = min (c.width - 1) (contentRight c + m.right) := rfl
    have g5 : trimNewWidth c m = trimRight c m - trimLeft c m + 1 := rfl
    have g6 : trimNewHeight c m = trimBottom c m - trimTop c m + 1 := rfl
    have q1 : trimLeft c m = 0 := by
      rw [g3, sL, e3]
      clear * -
      omega
    have q2 : trimTop c m = 0 := by
      rw [g1, sT, e1]
      clear * -
      omega
    have q3 : trimRight c m = c.width - 1 := by
      rw [g4, sR, hcw, e5, e4, e3]
      clear * - hLR hRlt
      omega
    have q4 : trimBottom c m = c.height - 1 := by
      rw [g2, sB, hch, e6, e2, e1]
      clear * - hTB hBlt
      omega
    have hcond2 : c.width - 10 ≤ trimNewWidth c m ∧ c.height - 10 ≤ trimNewHeight c m := by
      rw [g5, g6, q1, q2, q3, q4]
      clear * -
      omega
    rw [hcrop1, ← hcdef]
    unfold trimCanvasMargins
    rw [if_pos hcond2]

/-! ## The proportional scaler and the page pipeline -/

/-- C3 (amended): scaling produces width exactly `targetWidth`, and
height exactly `Math.round` of the binary64 evaluation of
`targetWidth * (height / width)` as the code computes it; whenever the
aspect ratio is an integer (and the product stays below `2^53`) this
agrees with the exact formula `round(targetWidth * height / width)`,
but at double-rounding boundaries the two differ. -/
theorem scaleToWidth_spec (b : Bitmap) (w : Nat) (hw0 : 1 ≤ b.width) (hh : 1 ≤ b.height)
    (hw : 1 ≤ w) :
    (scaleToWidth b w).width = w ∧
    ((scaleToWidth b w).height : ℤ) = jsRound (dMul w (dDiv b.height b.width)) ∧
    (∀ a : Nat, b.height = b.width * a → w * a < 2 ^ 53 →
      (scaleToWidth b w).height = w * a ∧
      jsRound ((w * b.height : ℚ) / b.width) = (w * a : ℕ)) := by
  refine ⟨rfl, ?_, ?_⟩
  · show ((jsRound (dMul w (dDiv b.height b.width))).toNat : ℤ) = _
    apply Int.toNat_of_nonneg
    have h1 : (0 : ℚ) ≤ dDiv b.height b.width := fl_nonneg (by positivity)
    have h2 : (0 : ℚ) ≤ dMul w (dDiv b.height b.width) :=
      fl_nonneg (mul_nonneg (by positivity) h1)
    rw [jsRound, round_eq]
    exact Int.floor_nonneg.mpr (by linarith)
  · intro a hba hlt
    have h53 : (2 : ℕ) ^ 53 = 9007199254740992 := by norm_num
    have ha1 : 1 ≤ a := by
      rcases Nat.eq_zero_or_pos a with h | h
      · subst h
        simp at hba
        omega
      · exact h
    have hwa1 : 1 ≤ w * a := by
      have := Nat.mul_le_mul hw ha1
      omega
    have hdiv : ((b.height : ℚ) / b.width) = (a : ℚ) := by
      rw [hba]
      push_cast
      rw [mul_comm, mul_div_assoc, div_self (by positivity), mul_one]
    have haw : a ≤ w * a := by
      calc a = 1 * a := (one_mul a).symm
      _ ≤ w * a := Nat.mul_le_mul_right a hw
    have hfl1 : dDiv b.height b.width = (a : ℚ) := by
      rw [dDiv, hdiv]
      exact fl_nat a ha1 (by omega)
    have hmul : dMul w (dDiv b.height b.width) = ((w * a : ℕ) : ℚ) := by
      rw [hfl1, dMul]
      have hcast : (w : ℚ) * (a : ℚ) = ((w * a : ℕ) : ℚ) := by
        push_cast
        ring
      rw [hcast]
      exact fl_nat (w * a) hwa1 hlt
    constructor
    · show (jsRound (dMul w (dDiv b.height b.width))).toNat = w * a
      rw [hmul, jsRound, round_natCast, Int.toNat_natCast]
    · have hfrac : ((w : ℚ) * b.height) / b.width = ((w * a : ℕ) : ℚ) := by
        rw [mul_div_assoc, hdiv]
        push_cast
        ring
      rw [hfrac, jsRound, round_natCast]

/-- Witness for C3's amended theorem: a 4×8 bitmap (integer aspect
ratio 2) scaled to width 2 has height exactly 4. -/
theorem scaleToWidth_spec_witness :
    (scaleToWidth exAspect2 2).width = 2 ∧ (scaleToWidth exAspect2 2).height = 2 * 2 := by
  have h := scaleToWidth_spec exAspect2 2 (by decide) (by decide) (by decide)
  exact ⟨h.1, (h.2.2 2 (by decide) (by decide)).1⟩

/-- C3 as frozen is false on the code: a 6×13 bitmap scaled to target
width 27 gets height 58 (the binary64 evaluation of `27 * (13/6)` is
just below 58.5 because `13/6` rounds down), while the claimed exact
formula gives `round(27*13/6) = round(58.5) = 59` in both
associations. -/
theorem scale_height_exact_round_cex :
    (scaleToWidth exTall 27).height = 58 ∧
      round ((27 * exTall.height : ℚ) / exTall.width) = 59 ∧
      round ((27 : ℚ) * ((exTall.height : ℚ) / exTall.width)) = 59 := by
  refine ⟨?_, ?_, ?_⟩
  · show (jsRound (dMul ((27 : ℕ) : ℚ) (dDiv ((13 : ℕ) : ℚ) ((6 : ℕ) : ℚ)))).toNat = 58
    push_cast
    rw [dDiv]
    have h136 : ((13 : ℚ) / 6) = 13 / 6 := rfl
    rw [show fl ((13 : ℚ) / 6) = dDiv 13 6 from rfl, r136_eval, h27_eval]
    have h1 : jsRound (8233143068786687 / 140737488355328 : ℚ) = 58 := by
      rw [jsRound, round_eq]
      norm_num
    rw [h1]
    rfl
  · rw [round_eq]
    norm_num [exTall]
  · rw [round_eq]
    norm_num [exTall]

/-- C4: the configuration the specification requires to be rejected
(`targetWidth = 0`, `monochromeThreshold = 300`) is not rejected:
a 2-page run completes normally, the falsy target width silently
skips scaling, and the page keeps the trimmed dimensions. -/
theorem invalid_config_not_rejected :
    processPdfFile (ε := String) 2 (fun _ => Except.ok exBlack8) invalidCfg =
      Except.ok [processPdfPage exBlack8 invalidCfg, processPdfPage exBlack8 invalidCfg] ∧
    (processPdfPage exBlack8 invalidCfg).width = 8 ∧
    (processPdfPage exBlack8 invalidCfg).height = 1 := by
  refine ⟨rfl, ?_, ?_⟩
  · decide
  · decide

/-- C6: with `enabled = false` both trimming and scaling are skipped,
rasterization still runs on the untouched bitmap, and the reported
dimensions are the source bitmap's. -/
theorem disabled_skips_trim_scale (b : Bitmap) (cfg : PdfProcessingConfig)
    (hdis : cfg.enabled = false) :
    processPdfPage b cfg =
      { width := b.width, height := b.height,
        raster := canvasToRasterData b cfg.monochromeThreshold, canvas := b } := by
  unfold processPdfPage
  rw [hdis]
  simp

/-- Witness for C6 at a concrete bitmap and disabled configuration. -/
theorem disabled_skips_trim_scale_witness :
    processPdfPage exBWB disabledCfg =
      { width := exBWB.width, height := exBWB.height,
        raster := canvasToRasterData exBWB disabledCfg.monochromeThreshold, canvas := exBWB } :=
  disabled_skips_trim_scale exBWB disabledCfg rfl

/-- C10: with processing enabled but `targetWidth` explicitly 0 (the
only falsy natural), the scaling branch is silently skipped — no error
is raised — and the page keeps the trimmed bitmap and its
dimensions. -/
theorem falsy_targetWidth_skips_scaling (b : Bitmap) (cfg : PdfProcessingConfig)
    (hen : cfg.enabled = true) (htw : cfg.targetWidth = 0) :
    processPdfPage b cfg =
      { width := (trimCanvasMargins b cfg.trimMargins).width
        height := (trimCanvasMargins b cfg.trimMargins).height
        raster := canvasToRasterData (trimCanvasMargins b cfg.trimMargins)
          cfg.monochromeThreshold
        canvas := trimCanvasMargins b cfg.trimMargins } := by
  unfold processPdfPage
  rw [hen, htw]
  simp

/-- Witness for C10 at a concrete bitmap with the zero-width
configuration. -/
theorem falsy_targetWidth_skips_scaling_witness :
    processPdfPage exBWB invalidCfg =
      { width := (trimCanvasMargins exBWB invalidCfg.trimMargins).width
        height := (trimCanvasMargins exBWB invalidCfg.trimMargins).height
        raster := canvasToRasterData (trimCanvasMargins exBWB invalidCfg.trimMargins)
          invalidCfg.monochromeThreshold
        canvas := trimCanvasMargins exBWB invalidCfg.trimMargins } :=
  falsy_targetWidth_skips_scaling exBWB invalidCfg rfl rfl

/-- The page loop fails with the error of the first failing page when
all earlier pages decode. -/
theorem processPagesFrom_error {ε : Type} (getPage : Nat → Except ε Bitmap)
    (cfg : PdfProcessingConfig) :
    ∀ (count start j : Nat) (e : ε), start ≤ j → j < start + count →
      getPage j = Except.error e →
      (∀ k, start ≤ k → k < j → ∃ bk, getPage k = Except.ok bk) →
      processPagesFrom getPage cfg start count = Except.error e := by
  intro count
  induction count with
  | zero =>
    intro start j e h1 h2 hj hok
    omega
  | succ n ih =>
    intro start j e h1 h2 hj hok
    rcases Nat.eq_or_lt_of_le h1 with heq | hlt
    · subst heq
      unfold processPagesFrom
      rw [hj]
    · obtain ⟨b1, hb1⟩ := hok start le_rfl hlt
      unfold processPagesFrom
      rw [hb1]
      have hrec := ih (start + 1) j e (by omega) (by omega) hj
        (fun k hk1 hk2 => hok k (by omega) hk2)
      rw [hrec]

/-- The page loop returns the pages in increasing page order when
every page decodes. -/
theorem processPagesFrom_ok {ε : Type} (getPage : Nat → Except ε Bitmap)
    (cfg : PdfProcessingConfig) (bs : Nat → Bitmap) :
    ∀ (count start : Nat),
      (∀ k, start ≤ k → k < start + count → getPage k = Except.ok (bs k)) →
      processPagesFrom getPage cfg start count =
        Except.ok ((List.range count).map fun idx => processPdfPage (bs (start + idx)) cfg) := by
  intro count
  induction count with
  | zero =>
    intro start h
    rfl
  | succ n ih =>
    intro start hok
    unfold processPagesFrom
    rw [hok start le_rfl (by omega)]
    rw [ih (start + 1) (fun k h1 h2 => hok k (by omega) (by omega))]
    have hfun : ((fun idx => processPdfPage (bs (start + idx)) cfg) ∘ Nat.succ) =
        (fun idx => processPdfPage (bs (start + 1 + idx)) cfg) := by
      funext a
      show processPdfPage (bs (start + (a + 1))) cfg = processPdfPage (bs (start + 1 + a)) cfg
      have hidx : start + (a + 1) = start + 1 + a := by omega
      rw [hidx]
    have hlist : (List.range (n + 1)).map (fun idx => processPdfPage (bs (start + idx)) cfg) =
        processPdfPage (bs start) cfg ::
          (List.range n).map (fun idx => processPdfPage (bs (start + 1 + idx)) cfg) := by
      rw [List.range_succ_eq_map, List.map_cons, List.map_map, hfun]
      simp
    rw [hlist]

/-- C7: processing a multi-page document walks pages 1, 2, ... in
increasing order; if the bitmap source fails on a page after all
earlier pages decoded, the whole operation returns exactly that
page's error with no partial result; if every page decodes, the
result lists the processed pages in page order. -/
theorem processPdfFile_spec {ε : Type} (numPages : Nat) (getPage : Nat → Except ε Bitmap)
    (cfg : PdfProcessingConfig) :
    (∀ (j : Nat) (e : ε), 1 ≤ j → j ≤ numPages → getPage j = Except.error e →
      (∀ k, 1 ≤ k → k < j → ∃ bk, getPage k = Except.ok bk) →
      processPdfFile numPages getPage cfg = Except.error e) ∧
    (∀ bs : Nat → Bitmap, (∀ k, 1 ≤ k → k ≤ numPages → getPage k = Except.ok (bs k)) →
      processPdfFile numPages getPage cfg =
        Except.ok ((List.range numPages).map fun idx => processPdfPage (bs (idx + 1)) cfg)) := by
  constructor
  · intro j e h1 h2 hj hok
    exact processPagesFrom_error getPage cfg numPages 1 j e h1 (by omega) hj hok
  · intro bs hok
    have h := processPagesFrom_ok getPage cfg bs numPages 1
      (fun k hk1 hk2 => hok k hk1 (by omega))
    rw [processPdfFile, h]
    congr 1
    apply List.map_congr_left
    intro a _
    have hidx : 1 + a = a + 1 := by omega
    rw [hidx]

/-- Witness for C7: a source failing at page 2 of 3 aborts with that
error; an always-succeeding source yields both pages in order. -/
theorem processPdfFile_spec_witness :
    processPdfFile 3 exFailingSource DEFAULT_PDF_CONFIG = Except.error "decode" ∧
    processPdfFile 2 exOkSource DEFAULT_PDF_CONFIG =
      Except.ok ((List.range 2).map fun idx => processPdfPage exBWB DEFAULT_PDF_CONFIG) := by
  constructor
  · apply (processPdfFile_spec 3 exFailingSource DEFAULT_PDF_CONFIG).1 2 "decode"
      (by omega) (by omega) rfl
    intro k hk1 hk2
    have hk : k = 1 := by omega
    subst hk
    exact ⟨exBlack8, rfl⟩
  · exact (processPdfFile_spec 2 exOkSource DEFAULT_PDF_CONFIG).2 (fun _ => exBWB)
      (fun k _ _ => rfl)
